import Mathlib

/-
Verification of the minishell command-line tokenizer and operator-resolution
engine (alinachiu/minishell: tokens.c, shell.c), as a shallow embedding.

Modelling conventions:
- A C string is a `List Char` holding the bytes strictly before the
  terminating NUL; C strings never contain the NUL byte, which appears as a
  hypothesis where a definition branches on it.  Bytes past the terminating
  NUL of a buffer are modelled as end of input (a freshly zeroed buffer).
- The token vector `vect_t` *(a list of strings, its implementation lives
  outside this repository)* is a `List String`; `vect_add` is appending at
  the end, matching the order `tokenize` emits tokens.
- `exit(1)` inside the tokenizer is modelled as `Except.error ()`; a normal
  return is `Except.ok`.
- The fixed buffer bound MAX_CHAR = 256 limits only lines of 256 or more
  bytes, which the reading layer (`fgets(commands, MAX_CHAR, stdin)`)
  already truncates; the models therefore take whole lines.
-/

namespace Minishell

/-- The C string terminator byte, used by `handle_quotes` for its
end-of-input test. -/
def nulChar : Char := '\x00'

/-- Mirrors `special_char` in tokens.c: non-zero exactly for the
operator-class characters. -/
def special_char (c : Char) : Bool :=
  c = '<' || c = '>' || c = ';' || c = '(' || c = ')' || c = '|'

/-- Mirrors `add_and_reset` in tokens.c: if the current token buffer is
non-empty, append it to the vector and reset the buffer; otherwise leave
both unchanged.  Returns (new vector, new buffer). -/
def add_and_reset (vector : List String) (ch : String) : List String × String :=
  if ch.length ≠ 0 then (vector ++ [ch], "") else (vector, ch)

/-- Mirrors `handle_quotes` in tokens.c, called with the characters after
the opening double quote.  The C loop `while (s[i+1] != 0)` ends at the
string end (`[]` here); inside the loop the guard `if (s[i+1] == 0) exit(1)`
is kept verbatim as the `Except.error ()` branch — it can fire only on a
character equal to the NUL byte, which a C string never contains.  A
non-quote character is appended to the run; the closing quote stops the
scan.  Returns (quoted run, characters after the closing quote); when the
input ends with the quote unterminated, the run is everything to the end
and scanning resumes past the end. -/
def handle_quotes : List Char → Except Unit (String × List Char)
  | [] => Except.ok ("", [])
  | c :: rest =>
    if c = nulChar then Except.error ()
    else if c ≠ '"' then
      match handle_quotes rest with
      | Except.ok pr => Except.ok (⟨c :: pr.1.data⟩, pr.2)
      | Except.error e => Except.error e
    else Except.ok ("", rest)

theorem handle_quotes_length (s : List Char) (pr : String × List Char)
    (h : handle_quotes s = Except.ok pr) : pr.2.length ≤ s.length := by
  induction s generalizing pr with
  | nil =>
    simp only [handle_quotes] at h
    cases h
    simp
  | cons c rest ih =>
    simp only [handle_quotes] at h
    by_cases hnul : c = nulChar
    · simp [hnul] at h
    · simp only [hnul, if_false] at h
      by_cases hq : c = '"'
      · simp [hq] at h
        cases h
        simp [List.length_cons]
      · simp only [hq, ne_eq, not_false_eq_true, if_true, if_neg] at h
        cases heq : handle_quotes rest with
        | ok pr2 =>
          rw [heq] at h
          cases h
          have := ih pr2 heq
          simp [List.length_cons]
          omega
        | error e => rw [heq] at h; cases h

/-- Mirrors the scanning loop of `tokenize` in tokens.c, carrying the
current token buffer `result` and the token vector.  Branches in the
source's order: a space flushes; the two-character sequence backslash
then `t` flushes and is consumed; a double quote flushes and hands the
rest to `handle_quotes`, whose run is appended to the (just reset, hence
empty) buffer; an operator-class character flushes, then is emitted as its
own one-character token; any other character is appended to the buffer.
At end of input the buffer is flushed.  An `Except.error` from
`handle_quotes` models the process aborting via `exit(1)`. -/
def tokenize_loop (s : List Char) (result : String) (vector : List String) :
    Except Unit (List String) :=
  match s with
  | [] => Except.ok (add_and_reset vector result).1
  | c :: rest =>
    if c = ' ' then
      tokenize_loop rest (add_and_reset vector result).2 (add_and_reset vector result).1
    else if c = '\\' ∧ rest.head? = some 't' then
      tokenize_loop rest.tail (add_and_reset vector result).2 (add_and_reset vector result).1
    else if c = '"' then
      match hq : handle_quotes rest with
      | Except.ok pr =>
        tokenize_loop pr.2 ((add_and_reset vector result).2 ++ pr.1)
          (add_and_reset vector result).1
      | Except.error _ => Except.error ()
    else if special_char c then
      tokenize_loop rest
        (add_and_reset (add_and_reset vector result).1 ((add_and_reset vector result).2.push c)).2
        (add_and_reset (add_and_reset vector result).1 ((add_and_reset vector result).2.push c)).1
    else
      tokenize_loop rest (result.push c) vector
termination_by s.length
decreasing_by
  · simp
  · simp only [List.length_cons]
    have := List.length_tail rest
    omega
  · simp only [List.length_cons]
    have := handle_quotes_length rest pr hq
    omega
  · simp
  · simp

/-- Mirrors `tokenize` in tokens.c: scan with an empty buffer and an empty
vector. -/
def tokenize (line : List Char) : Except Unit (List String) :=
  tokenize_loop line "" []

example : tokenize "ls -l".data = Except.ok ["ls", "-l"] := by
  simp [tokenize, tokenize_loop, handle_quotes, add_and_reset, special_char]
  decide

example : tokenize "a;b".data = Except.ok ["a", ";", "b"] := by
  simp [tokenize, tokenize_loop, handle_quotes, add_and_reset, special_char]
  decide

/-- Mirrors `has_special` in shell.c: walk the tokens left to right and
return 1 on the first token equal to `;`, 2 on `<`, 3 on `>`, 4 on `|`;
0 when no token matches any of the four. -/
def has_special : List String → Nat
  | [] => 0
  | t :: rest =>
    if t = ";" then 1
    else if t = "<" then 2
    else if t = ">" then 3
    else if t = "|" then 4
    else has_special rest

/-- The literal that `execute_special` in shell.c passes to `split` for
each `has_special` code: case 1 reaches `split(";", ...)` through
`handle_semicolon`, case 2 is `split("<", ...)`, case 3 is
`split(">", ...)`, case 4 reaches `split("|", ...)` through `custom_pipe`;
the default case splits on nothing. -/
def op_literal : Nat → Option String
  | 1 => some ";"
  | 2 => some "<"
  | 3 => some ">"
  | 4 => some "|"
  | _ => none

/-- Exact-string-equality test against the four control-operator literals,
as `has_special` performs it with `strcmp`. -/
def is_op (t : String) : Bool :=
  t = ";" || t = "<" || t = ">" || t = "|"

/-- Mirrors `split` in shell.c: copy tokens into the left side until the
first token equal to `special_token`, skip that token, and copy the rest
into the right side.  The source runs under the caller-guaranteed
precondition that `special_token` occurs in `tokens` (its first loop would
otherwise run off the end of the array); the `[]` case here is that
unreachable situation. -/
def split (special_token : String) : List String → List String × List String
  | [] => ([], [])
  | t :: rest =>
    if t = special_token then ([], rest)
    else ((t :: (split special_token rest).1), (split special_token rest).2)

/-- Mirrors `num_pipes` in shell.c: the number of tokens equal to `|`. -/
def num_pipes : List String → Nat
  | [] => 0
  | t :: rest => (if t = "|" then 1 else 0) + num_pipes rest

/-- The action `execute_special` in shell.c takes on a token sequence,
one constructor per branch of its switch: `semicolon l r` is
`handle_semicolon`'s fork/wait sequencing of the two halves of
`split(";")`; `input_redirect l r` and `output_redirect l r` run the left
half with standard input / output redirected to the file named by the
right half's first token; `pipe_split l r` is `custom_pipe`'s piped
concurrent execution of the two halves of `split("|")`; `leaf t` is the
default branch, `execvp` on the whole sequence. -/
inductive SpecAction where
  | semicolon : List String → List String → SpecAction
  | input_redirect : List String → List String → SpecAction
  | output_redirect : List String → List String → SpecAction
  | pipe_split : List String → List String → SpecAction
  | leaf : List String → SpecAction
deriving DecidableEq, Repr

/-- Mirrors `custom_pipe` in shell.c at the dispatch level: it splits the
tokens on the first `|` and runs the two halves concurrently with the
left's standard output piped into the right's standard input. -/
def custom_pipe (tokens : List String) : SpecAction :=
  SpecAction.pipe_split (split "|" tokens).1 (split "|" tokens).2

/-- Mirrors `execute_special` in shell.c: switch on `has_special`;
case 1 `handle_semicolon` (splits on `;`), case 2
`handle_input_redirection` (splits on `<`), case 3
`handle_output_redirection` (splits on `>`), case 4 `custom_pipe`,
default `execvp` on the tokens themselves. -/
def execute_special (tokens : List String) : SpecAction :=
  if has_special tokens = 1 then
    SpecAction.semicolon (split ";" tokens).1 (split ";" tokens).2
  else if has_special tokens = 2 then
    SpecAction.input_redirect (split "<" tokens).1 (split "<" tokens).2
  else if has_special tokens = 3 then
    SpecAction.output_redirect (split ">" tokens).1 (split ">" tokens).2
  else if has_special tokens = 4 then
    custom_pipe tokens
  else SpecAction.leaf tokens

/-- Mirrors `handle_specials_exec` in shell.c: when the first operator is a
pipe it distinguishes more than one pipe (calling `execute_special`) from
a single pipe (calling `custom_pipe` directly); any other operator goes to
`execute_special`. -/
def handle_specials_exec (tokens : List String) : SpecAction :=
  if has_special tokens = 4 then
    if num_pipes tokens > 1 then execute_special tokens
    else custom_pipe tokens
  else execute_special tokens

/-- One step the parent process of `handle_semicolon` in shell.c performs:
`spawn t` is `fork()` with the child running `execute_special` on `t`;
`wait_child` is `wait(NULL)` — block until the child terminates, with the
exit status discarded (never inspected). -/
inductive PEvent where
  | spawn : List String → PEvent
  | wait_child : PEvent
deriving DecidableEq, Repr

/-- Mirrors `handle_semicolon` in shell.c as the parent's event sequence:
split on the first `;`, fork a child running the left half, wait for it
unconditionally, then fork a second child running the right half and wait
for it.  No branch of the source depends on either child's exit status. -/
def handle_semicolon (tokens : List String) : List PEvent :=
  [PEvent.spawn (split ";" tokens).1, PEvent.wait_child,
   PEvent.spawn (split ";" tokens).2, PEvent.wait_child]

/-- Observable behaviour of `handle_prev` in shell.c: the lines it prints,
and the line it hands to `execute` for re-execution, if any. -/
structure PrevBehavior where
  printed : List String
  executed_line : Option String
deriving DecidableEq, Repr

/-- Mirrors `handle_prev` in shell.c.  `prev_tokens` is the stored
previous raw line (the `prev_tokens != NULL` conjunct of the source is
always true: the argument is the address of a stack array).  With exactly
one token, the stored line is printed unconditionally, and it is handed to
`execute` only under the source's `strlen(prev_tokens) == 0` guard;
otherwise a usage message is printed. -/
def handle_prev (tokens : List String) (prev_tokens : String) : PrevBehavior :=
  if tokens.length = 1 then
    { printed := [prev_tokens],
      executed_line := if prev_tokens.length = 0 then some prev_tokens else none }
  else
    { printed := ["-shell: prev: prev requires one argument\nusage: prev: prev"],
      executed_line := none }

/-- Mirrors `execute` in shell.c in its two session-visible effects: the
returned int (1 exactly from the `exit` branch, 0 from every other path)
and the final contents of the previous-line slot (`prev_tokens`), which
`update_prev_tokens(commands, prev_tokens)` overwrites with the raw line
in the operator, `cd`, `source`, `help` and external-command branches, and
which the `exit`, `prev` and empty-input paths leave unchanged.  (The
`execute` call inside `handle_prev` cannot alter the slot: it is guarded
by `strlen(prev_tokens) == 0` and then dispatches the empty token list,
hitting the `size(tokens) != 0` false branch; the `execute` calls inside
`handle_source` use a buffer local to `handle_source`.) -/
def execute (tokens : List String) (commands : String) (prev_tokens : String) :
    Nat × String :=
  if tokens.length ≠ 0 then
    if tokens.headI = "exit" then (1, prev_tokens)
    else if 0 < has_special tokens then (0, commands)
    else if tokens.headI = "cd" then (0, commands)
    else if tokens.headI = "source" then (0, commands)
    else if tokens.headI = "prev" then (0, prev_tokens)
    else if tokens.headI = "help" then (0, commands)
    else (0, commands)
  else (0, prev_tokens)

theorem has_special_cons_not_op (t : String) (rest : List String)
    (h : is_op t = false) : has_special (t :: rest) = has_special rest := by
  simp only [is_op, Bool.or_eq_false_iff, decide_eq_false_iff_not] at h
  obtain ⟨⟨⟨h1, h2⟩, h3⟩, h4⟩ := h
  simp [has_special, h1, h2, h3, h4]

theorem has_special_op_mem (tokens : List String) (op : String)
    (h : op_literal (has_special tokens) = some op) : op ∈ tokens := by
  induction tokens with
  | nil => simp [has_special, op_literal] at h
  | cons t rest ih =>
    by_cases h1 : t = ";"
    · simp [has_special, h1, op_literal] at h
      simp [h1, h]
    · by_cases h2 : t = "<"
      · simp [has_special, h1, h2, op_literal] at h
        simp [h2, h]
      · by_cases h3 : t = ">"
        · simp [has_special, h1, h2, h3, op_literal] at h
          simp [h3, h]
        · by_cases h4 : t = "|"
          · simp [has_special, h1, h2, h3, h4, op_literal] at h
            simp [h4, h]
          · simp only [has_special, h1, h2, h3, h4, if_false] at h
            exact List.mem_cons_of_mem t (ih h)

theorem split_eq_of_mem (op : String) (tokens : List String) (h : op ∈ tokens) :
    (split op tokens).1 ++ op :: (split op tokens).2 = tokens ∧
      op ∉ (split op tokens).1 := by
  induction tokens with
  | nil => cases h
  | cons t rest ih =>
    by_cases ht : t = op
    · subst ht
      simp [split]
    · have hmem : op ∈ rest := by
        cases h with
        | head => exact absurd rfl ht
        | tail _ hr => exact hr
      have ihr := ih hmem
      constructor
      · simp only [split, if_neg ht, List.cons_append]
        rw [ihr.1]
      · simp only [split, if_neg ht, List.mem_cons, not_or]
        exact ⟨fun he => ht he.symm, ihr.2⟩

theorem split_length_lt (op : String) (tokens : List String) (h : op ∈ tokens) :
    (split op tokens).1.length < tokens.length ∧
      (split op tokens).2.length < tokens.length := by
  have he := (split_eq_of_mem op tokens h).1
  constructor
  · have : ((split op tokens).1 ++ op :: (split op tokens).2).length = tokens.length := by
      rw [he]
    simp [List.length_append] at this
    omega
  · have : ((split op tokens).1 ++ op :: (split op tokens).2).length = tokens.length := by
      rw [he]
    simp [List.length_append] at this
    omega

/-- The token sub-sequences that `execute_special` in shell.c eventually
hands to `execvp` (leaf execution) across its recursive orchestration,
ignoring process boundaries: the `;` and `|` cases recurse into both
halves of the split (`handle_semicolon` and `custom_pipe` both call
`execute_special` on each half, in child processes); the `<` and `>`
cases `execvp` only the left half (the right half names the file); the
default case runs the whole sequence itself.  No case inspects the word
`exit`: there is no terminate handling anywhere in this recursion. -/
def exec_special_leaves (tokens : List String) : List (List String) :=
  if h1 : has_special tokens = 1 then
    exec_special_leaves (split ";" tokens).1 ++ exec_special_leaves (split ";" tokens).2
  else if has_special tokens = 2 then [(split "<" tokens).1]
  else if has_special tokens = 3 then [(split ">" tokens).1]
  else if h4 : has_special tokens = 4 then
    exec_special_leaves (split "|" tokens).1 ++ exec_special_leaves (split "|" tokens).2
  else [tokens]
termination_by tokens.length
decreasing_by
  · exact (split_length_lt ";" tokens (has_special_op_mem tokens ";" (by rw [h1]; rfl))).1
  · exact (split_length_lt ";" tokens (has_special_op_mem tokens ";" (by rw [h1]; rfl))).2
  · exact (split_length_lt "|" tokens (has_special_op_mem tokens "|" (by rw [h4]; rfl))).1
  · exact (split_length_lt "|" tokens (has_special_op_mem tokens "|" (by rw [h4]; rfl))).2

/-- Statement-side pairing for C1: the `execute_special` branch that
resolves operator `op`, i.e. the action that splits the tokens on `op`
itself. -/
def op_action (op : String) (tokens : List String) : SpecAction :=
  if op = ";" then SpecAction.semicolon (split ";" tokens).1 (split ";" tokens).2
  else if op = "<" then SpecAction.input_redirect (split "<" tokens).1 (split "<" tokens).2
  else if op = ">" then SpecAction.output_redirect (split ">" tokens).1 (split ">" tokens).2
  else custom_pipe tokens

/-- C1: for a token sequence whose first control-operator occurrence is
`op` (no operator among the tokens before it), the operator scanner
selects `op` — whatever its kind, position alone decides — and
`execute_special` resolves the sequence by the branch that splits on `op`. -/
theorem c1_first_operator_positional (pre post : List String) (op : String)
    (hop : is_op op = true) (hpre : ∀ t ∈ pre, is_op t = false) :
    op_literal (has_special (pre ++ op :: post)) = some op ∧
    execute_special (pre ++ op :: post) = op_action op (pre ++ op :: post) := by
  have hcode : has_special (pre ++ op :: post) = has_special (op :: post) := by
    induction pre with
    | nil => rfl
    | cons t rest ih =>
      rw [List.cons_append, has_special_cons_not_op t _ (hpre t (List.mem_cons_self t rest)),
        ih (fun x hx => hpre x (List.mem_cons_of_mem t hx))]
  simp only [is_op, Bool.or_eq_true, decide_eq_true_eq] at hop
  rcases hop with ((h | h) | h) | h <;> subst h
  · have hval : has_special (pre ++ ";" :: post) = 1 := by rw [hcode]; rfl
    exact ⟨by rw [hval]; rfl, by simp [execute_special, hval, op_action]⟩
  · have hval : has_special (pre ++ "<" :: post) = 2 := by rw [hcode]; rfl
    exact ⟨by rw [hval]; rfl, by simp [execute_special, hval, op_action]⟩
  · have hval : has_special (pre ++ ">" :: post) = 3 := by rw [hcode]; rfl
    exact ⟨by rw [hval]; rfl, by simp [execute_special, hval, op_action]⟩
  · have hval : has_special (pre ++ "|" :: post) = 4 := by rw [hcode]; rfl
    exact ⟨by rw [hval]; rfl, by simp [execute_special, hval, op_action]⟩

/-- Witness for C1, at the claim's own example: the sequence
`cat f > out ; echo done` is resolved by splitting on `>` (the first
operator by position), not on `;`. -/
theorem c1_witness :
    op_literal (has_special ["cat", "f", ">", "out", ";", "echo", "done"]) = some ">" ∧
    execute_special ["cat", "f", ">", "out", ";", "echo", "done"] =
      SpecAction.output_redirect ["cat", "f"] ["out", ";", "echo", "done"] := by
  have h := c1_first_operator_positional ["cat", "f"] ["out", ";", "echo", "done"] ">"
    (by decide) (by decide)
  simp only [List.cons_append, List.nil_append] at h
  refine ⟨h.1, ?_⟩
  rw [h.2]
  decide

/-- C2: when the operator scanner reports an operator with literal `op`,
`split op tokens` returns as left exactly the tokens strictly before the
first occurrence of `op` and as right exactly the tokens strictly after
it; rejoining left, the operator and right restores the original
sequence, and the left side contains no occurrence of `op`. -/
theorem c2_split_around_first_occurrence (tokens : List String) (op : String)
    (h : op_literal (has_special tokens) = some op) :
    (split op tokens).1 ++ op :: (split op tokens).2 = tokens ∧
    op ∉ (split op tokens).1 ∧
    (split op tokens).1 = tokens.take (split op tokens).1.length ∧
    tokens[(split op tokens).1.length]? = some op ∧
    (split op tokens).2 = tokens.drop ((split op tokens).1.length + 1) := by
  have hmem := has_special_op_mem tokens op h
  obtain ⟨heq, hnot⟩ := split_eq_of_mem op tokens hmem
  obtain ⟨l, hl⟩ : ∃ l, (split op tokens).1 = l := ⟨_, rfl⟩
  obtain ⟨r, hr⟩ : ∃ r, (split op tokens).2 = r := ⟨_, rfl⟩
  rw [hl] at hnot
  rw [hl, hr] at heq
  rw [hl, hr]
  refine ⟨heq, hnot, ?_, ?_, ?_⟩
  · rw [← heq, List.take_left]
  · rw [← heq, List.getElem?_append_right le_rfl]
    simp
  · rw [← heq, List.append_cons,
      show l.length + 1 = (l ++ [op]).length by simp, List.drop_left]

/-- Witness for C2 at the concrete sequence `a ; b`. -/
theorem c2_witness :
    (split ";" ["a", ";", "b"]).1 ++ ";" :: (split ";" ["a", ";", "b"]).2 = ["a", ";", "b"] ∧
    ";" ∉ (split ";" ["a", ";", "b"]).1 ∧
    (split ";" ["a", ";", "b"]).1 =
      List.take (split ";" ["a", ";", "b"]).1.length ["a", ";", "b"] ∧
    (["a", ";", "b"][(split ";" ["a", ";", "b"]).1.length]?) = some ";" ∧
    (split ";" ["a", ";", "b"]).2 =
      List.drop ((split ";" ["a", ";", "b"]).1.length + 1) ["a", ";", "b"] :=
  c2_split_around_first_occurrence ["a", ";", "b"] ";" (by decide)

/-- C8: on a token sequence whose first operator is `;`, the parent of
`handle_semicolon` forks a child running the left half, waits for it
before anything else happens, then forks a child running the right half
and waits for it — left runs to completion strictly before right begins,
right runs unconditionally (no event depends on the first child's
status, which `wait(NULL)` discards), and each half runs in its own
child process. -/
theorem c8_semicolon_sequencing (tokens : List String)
    (h : has_special tokens = 1) :
    tokens = (split ";" tokens).1 ++ ";" :: (split ";" tokens).2 ∧
    ";" ∉ (split ";" tokens).1 ∧
    handle_semicolon tokens =
      [PEvent.spawn (split ";" tokens).1, PEvent.wait_child,
       PEvent.spawn (split ";" tokens).2, PEvent.wait_child] := by
  have hmem := has_special_op_mem tokens ";" (by rw [h]; rfl)
  obtain ⟨heq, hnot⟩ := split_eq_of_mem ";" tokens hmem
  exact ⟨heq.symm, hnot, rfl⟩

/-- Witness for C8 at the concrete sequence `a ; b`. -/
theorem c8_witness :
    ["a", ";", "b"] = (split ";" ["a", ";", "b"]).1 ++ ";" :: (split ";" ["a", ";", "b"]).2 ∧
    ";" ∉ (split ";" ["a", ";", "b"]).1 ∧
    handle_semicolon ["a", ";", "b"] =
      [PEvent.spawn ["a"], PEvent.wait_child, PEvent.spawn ["b"], PEvent.wait_child] := by
  have h := c8_semicolon_sequencing ["a", ";", "b"] (by decide)
  refine ⟨h.1, h.2.1, ?_⟩
  rw [h.2.2]
  decide

/-- C10: `handle_specials_exec` is behaviourally equal to
`execute_special` on every token sequence — in the multi-pipe branch it
calls `execute_special`, which dispatches the pipe case to the same
`custom_pipe` call the single-pipe branch makes, so the distinction made
via `num_pipes` has no observable effect. -/
theorem c10_handle_specials_exec_eq_execute_special (tokens : List String) :
    handle_specials_exec tokens = execute_special tokens := by
  unfold handle_specials_exec
  by_cases h4 : has_special tokens = 4
  · have he : execute_special tokens = custom_pipe tokens := by
      simp [execute_special, h4]
    rw [if_pos h4, he]
    by_cases hp : num_pipes tokens > 1
    · rw [if_pos hp]
    · rw [if_neg hp]
  · rw [if_neg h4]

/-- C3 (code bug): with the non-empty line `ls` recorded, dispatching
`prev` prints the stored line but hands nothing to `execute` — the
source's re-execution guard `strlen(prev_tokens) == 0` fires only on an
empty stored line, the opposite of the documented behaviour ("Prints the
previous command and executes it again", per the source's own comment and
help text).  And with nothing recorded (empty stored line) it still
prints — an empty line — and hands the empty line to `execute`. -/
theorem c3_prev_guard_inverted :
    handle_prev ["prev"] "ls" = { printed := ["ls"], executed_line := none } ∧
    handle_prev ["prev"] "" = { printed := [""], executed_line := some "" } := by
  decide

/-- Counterexample for C9: dispatching `exit` does not overwrite the
previous-line slot (the `exit` branch of `execute` returns before
`update_prev_tokens`), though the claim requires every non-`prev`
command, `exit` included, to record its raw line. -/
theorem c9_counterexample_exit_not_recorded :
    (execute ["exit"] "exit" "cd /tmp").2 = "cd /tmp" ∧
    (execute ["exit"] "exit" "cd /tmp").2 ≠ "exit" := by
  decide

/-- C9 (amended): the slot is overwritten with the raw line by every
dispatched non-empty command except `exit` (which terminates without
recording) and except a `prev` dispatch (first token `prev`, no operator
present); those two leave the slot unchanged. -/
theorem c9_slot_update_rule (tokens : List String) (raw prev : String)
    (hne : tokens ≠ []) :
    (tokens.headI ≠ "exit" → ¬(tokens.headI = "prev" ∧ has_special tokens = 0) →
      (execute tokens raw prev).2 = raw) ∧
    (tokens.headI = "exit" → (execute tokens raw prev).2 = prev) ∧
    (tokens.headI = "prev" → has_special tokens = 0 →
      (execute tokens raw prev).2 = prev) := by
  have hlen : tokens.length ≠ 0 := by
    simpa [List.length_eq_zero] using hne
  refine ⟨?_, ?_, ?_⟩
  · intro hexit hprev
    unfold execute
    rw [if_pos hlen, if_neg hexit]
    by_cases hs : 0 < has_special tokens
    · rw [if_pos hs]
    · rw [if_neg hs]
      have hnp : tokens.headI ≠ "prev" := fun hp => hprev ⟨hp, by omega⟩
      by_cases hcd : tokens.headI = "cd"
      · rw [if_pos hcd]
      · rw [if_neg hcd]
        by_cases hsrc : tokens.headI = "source"
        · rw [if_pos hsrc]
        · rw [if_neg hsrc, if_neg hnp]
          by_cases hh : tokens.headI = "help"
          · rw [if_pos hh]
          · rw [if_neg hh]
  · intro hexit
    unfold execute
    rw [if_pos hlen, if_pos hexit]
  · intro hprev hs
    unfold execute
    have hexit : tokens.headI ≠ "exit" := by rw [hprev]; decide
    have hcd : tokens.headI ≠ "cd" := by rw [hprev]; decide
    have hsrc : tokens.headI ≠ "source" := by rw [hprev]; decide
    have hslt : ¬0 < has_special tokens := by omega
    rw [if_pos hlen, if_neg hexit, if_neg hslt, if_neg hcd, if_neg hsrc, if_pos hprev]

/-- Witness for C9 (amended), at the claim's own example: after
dispatching `cd /tmp` the slot holds exactly that raw line, and a
subsequent `prev` dispatch leaves the slot unchanged. -/
theorem c9_witness :
    (execute ["cd", "/tmp"] "cd /tmp" "ls").2 = "cd /tmp" ∧
    (execute ["prev"] "prev" "cd /tmp").2 = "cd /tmp" := by
  constructor
  · exact (c9_slot_update_rule ["cd", "/tmp"] "cd /tmp" "ls" (by decide)).1
      (by decide) (by decide)
  · exact (c9_slot_update_rule ["prev"] "prev" "cd /tmp" (by decide)).2.2
      (by decide) (by decide)

/-- Counterexample for C7: the orchestration of `ls ; exit` reaches the
sub-sequence `exit` (it is one of the leaf-executed sub-sequences of the
recursion), yet `execute` returns 0 — continue — so the session does not
end: no terminate outcome is propagated through the recursive
orchestration, which runs the sub-sequence as an external command in a
child process. -/
theorem c7_counterexample_nested_exit :
    (execute ["ls", ";", "exit"] "ls ; exit" "").1 = 0 ∧
    ["exit"] ∈ exec_special_leaves ["ls", ";", "exit"] := by
  constructor
  · decide
  · simp [exec_special_leaves, has_special, split]

/-- C7 (amended): the terminate outcome arises exactly when the first
token of the dispatched sequence is `exit`; it is never produced by the
recursive orchestration, so an `exit` nested behind an operator does not
end the session. -/
theorem c7_exit_only_at_dispatch_head (tokens : List String)
    (commands prev : String) :
    (execute tokens commands prev).1 = 1 ↔
      tokens ≠ [] ∧ tokens.headI = "exit" := by
  unfold execute
  by_cases hlen : tokens.length ≠ 0
  · have hne : tokens ≠ [] := by
      intro h
      rw [h] at hlen
      exact hlen rfl
    rw [if_pos hlen]
    by_cases hexit : tokens.headI = "exit"
    · rw [if_pos hexit]
      simp [hne, hexit]
    · simp only [if_neg hexit]
      constructor
      · intro h
        exfalso
        split_ifs at h
      · intro h
        exact absurd h.2 hexit
  · rw [if_neg hlen]
    simp only [ne_eq, not_not, List.length_eq_zero] at hlen
    simp [hlen]

/-- Witness for C7 (amended): dispatching `exit` itself terminates. -/
theorem c7_witness :
    (execute ["exit"] "exit" "").1 = 1 :=
  (c7_exit_only_at_dispatch_head ["exit"] "exit" "").mpr ⟨by decide, by decide⟩

theorem tokenize_loop_nil (result : String) (vector : List String) :
    tokenize_loop [] result vector = Except.ok (add_and_reset vector result).1 := by
  rw [tokenize_loop]

theorem tokenize_loop_space (rest : List Char) (result : String) (vector : List String) :
    tokenize_loop (' ' :: rest) result vector =
      tokenize_loop rest (add_and_reset vector result).2 (add_and_reset vector result).1 := by
  rw [tokenize_loop]
  rw [if_pos (rfl : (' ' : Char) = ' ')]

theorem tokenize_loop_tab (c : Char) (rest : List Char) (result : String)
    (vector : List String) (h1 : ¬c = ' ') (h2 : c = '\\' ∧ rest.head? = some 't') :
    tokenize_loop (c :: rest) result vector =
      tokenize_loop rest.tail (add_and_reset vector result).2 (add_and_reset vector result).1 := by
  rw [tokenize_loop]
  rw [if_neg h1, if_pos h2]

theorem tokenize_loop_quote (rest : List Char) (result : String) (vector : List String)
    (pr : String × List Char) (hq : handle_quotes rest = Except.ok pr) :
    tokenize_loop ('"' :: rest) result vector =
      tokenize_loop pr.2 ((add_and_reset vector result).2 ++ pr.1)
        (add_and_reset vector result).1 := by
  rw [tokenize_loop]
  rw [if_neg (by decide : ¬('"' : Char) = ' ')]
  rw [if_neg (by simp : ¬(('"' : Char) = '\\' ∧ rest.head? = some 't'))]
  rw [if_pos (rfl : ('"' : Char) = '"')]
  rw [hq]

theorem tokenize_loop_quote_error (rest : List Char) (result : String)
    (vector : List String) (e : Unit) (hq : handle_quotes rest = Except.error e) :
    tokenize_loop ('"' :: rest) result vector = Except.error () := by
  rw [tokenize_loop]
  rw [if_neg (by decide : ¬('"' : Char) = ' ')]
  rw [if_neg (by simp : ¬(('"' : Char) = '\\' ∧ rest.head? = some 't'))]
  rw [if_pos (rfl : ('"' : Char) = '"')]
  rw [hq]

theorem tokenize_loop_special (c : Char) (rest : List Char) (result : String)
    (vector : List String) (h1 : ¬c = ' ') (h2 : ¬(c = '\\' ∧ rest.head? = some 't'))
    (h3 : ¬c = '"') (h4 : special_char c = true) :
    tokenize_loop (c :: rest) result vector =
      tokenize_loop rest
        (add_and_reset (add_and_reset vector result).1 ((add_and_reset vector result).2.push c)).2
        (add_and_reset (add_and_reset vector result).1 ((add_and_reset vector result).2.push c)).1 := by
  rw [tokenize_loop]
  rw [if_neg h1, if_neg h2, if_neg h3, if_pos h4]

theorem tokenize_loop_other (c : Char) (rest : List Char) (result : String)
    (vector : List String) (h1 : ¬c = ' ') (h2 : ¬(c = '\\' ∧ rest.head? = some 't'))
    (h3 : ¬c = '"') (h4 : ¬special_char c = true) :
    tokenize_loop (c :: rest) result vector = tokenize_loop rest (result.push c) vector := by
  rw [tokenize_loop]
  rw [if_neg h1, if_neg h2, if_neg h3, if_neg h4]

theorem ne_empty_of_length (ch : String) (h : ch.length ≠ 0) : ch ≠ "" := by
  intro he
  rw [he] at h
  exact h rfl

theorem add_and_reset_snd (vector : List String) (ch : String) :
    (add_and_reset vector ch).2 = "" := by
  unfold add_and_reset
  by_cases h : ch.length ≠ 0
  · rw [if_pos h]
  · rw [if_neg h]
    simp only [ne_eq, not_not] at h
    cases ch with
    | mk data =>
      simp only [String.length] at h
      rw [List.length_eq_zero] at h
      subst h
      rfl

theorem add_and_reset_fst_forall (P : String → Prop) (vector : List String) (ch : String)
    (hv : ∀ t ∈ vector, P t) (hch : ch.length ≠ 0 → P ch) :
    ∀ t ∈ (add_and_reset vector ch).1, P t := by
  unfold add_and_reset
  by_cases h : ch.length ≠ 0
  · rw [if_pos h]
    intro t ht
    rcases List.mem_append.mp ht with h1 | h1
    · exact hv t h1
    · rw [List.mem_singleton] at h1
      subst h1
      exact hch h
  · rw [if_neg h]
    exact hv

theorem handle_quotes_ok (s : List Char) (h : ∀ c ∈ s, c ≠ nulChar) :
    ∃ pr, handle_quotes s = Except.ok pr := by
  induction s with
  | nil => exact ⟨("", []), rfl⟩
  | cons c rest ih =>
    have hc : c ≠ nulChar := h c (List.mem_cons_self c rest)
    by_cases hq : c = '"'
    · refine ⟨("", rest), ?_⟩
      simp [handle_quotes, hc, hq, nulChar]
    · obtain ⟨pr, hpr⟩ := ih (fun x hx => h x (List.mem_cons_of_mem c hx))
      refine ⟨(⟨c :: pr.1.data⟩, pr.2), ?_⟩
      simp [handle_quotes, hc, hq, hpr]

theorem handle_quotes_mem (s : List Char) (pr : String × List Char)
    (h : handle_quotes s = Except.ok pr) : ∀ c ∈ pr.2, c ∈ s := by
  induction s generalizing pr with
  | nil =>
    simp only [handle_quotes] at h
    cases h
    intro c hc
    cases hc
  | cons c rest ih =>
    unfold handle_quotes at h
    by_cases hnul : c = nulChar
    · rw [if_pos hnul] at h
      cases h
    · rw [if_neg hnul] at h
      by_cases hq : c = '"'
      · rw [if_neg (not_not_intro hq)] at h
        cases h
        intro x hx
        exact List.mem_cons_of_mem c hx
      · rw [if_pos hq] at h
        cases heq : handle_quotes rest with
        | ok pr2 =>
          rw [heq] at h
          cases h
          intro x hx
          exact List.mem_cons_of_mem c (ih pr2 heq x hx)
        | error e =>
          rw [heq] at h
          cases h

theorem tokenize_loop_ok (s : List Char) (result : String) (vector : List String) :
    (∀ c ∈ s, c ≠ nulChar) →
      ∃ toks, tokenize_loop s result vector = Except.ok toks := by
  induction s, result, vector using tokenize_loop.induct with
  | case1 result vector =>
    intro _
    exact ⟨_, tokenize_loop_nil result vector⟩
  | case2 result vector rest ih =>
    intro h
    obtain ⟨toks, ht⟩ := ih (fun c hc => h c (List.mem_cons_of_mem _ hc))
    exact ⟨toks, by rw [tokenize_loop_space]; exact ht⟩
  | case3 result vector c rest h1 h2 ih =>
    intro h
    obtain ⟨toks, ht⟩ := ih (fun x hx =>
      h x (List.mem_cons_of_mem _ (List.mem_of_mem_tail hx)))
    exact ⟨toks, by rw [tokenize_loop_tab c rest result vector h1 h2]; exact ht⟩
  | case4 result vector rest pr hq h1 h2 ih =>
    intro h
    obtain ⟨toks, ht⟩ := ih (fun x hx =>
      h x (List.mem_cons_of_mem _ (handle_quotes_mem rest pr hq x hx)))
    exact ⟨toks, by rw [tokenize_loop_quote rest result vector pr hq]; exact ht⟩
  | case5 result vector rest e hq h1 h2 =>
    intro h
    obtain ⟨pr, hpr⟩ := handle_quotes_ok rest (fun x hx => h x (List.mem_cons_of_mem _ hx))
    rw [hpr] at hq
    cases hq
  | case6 result vector c rest h1 h2 h3 h4 ih =>
    intro h
    obtain ⟨toks, ht⟩ := ih (fun x hx => h x (List.mem_cons_of_mem _ hx))
    exact ⟨toks, by rw [tokenize_loop_special c rest result vector h1 h2 h3 h4]; exact ht⟩
  | case7 result vector c rest h1 h2 h3 h4 ih =>
    intro h
    obtain ⟨toks, ht⟩ := ih (fun x hx => h x (List.mem_cons_of_mem _ hx))
    exact ⟨toks, by rw [tokenize_loop_other c rest result vector h1 h2 h3 h4]; exact ht⟩

theorem tokenize_loop_no_empty (s : List Char) (result : String) (vector : List String) :
    ∀ toks, tokenize_loop s result vector = Except.ok toks →
      (∀ t ∈ vector, t ≠ "") → ∀ t ∈ toks, t ≠ "" := by
  induction s, result, vector using tokenize_loop.induct with
  | case1 result vector =>
    intro toks hok hv
    rw [tokenize_loop_nil] at hok
    cases hok
    exact add_and_reset_fst_forall _ vector result hv (fun h => ne_empty_of_length result h)
  | case2 result vector rest ih =>
    intro toks hok hv
    rw [tokenize_loop_space] at hok
    exact ih toks hok
      (add_and_reset_fst_forall _ vector result hv (fun h => ne_empty_of_length result h))
  | case3 result vector c rest h1 h2 ih =>
    intro toks hok hv
    rw [tokenize_loop_tab c rest result vector h1 h2] at hok
    exact ih toks hok
      (add_and_reset_fst_forall _ vector result hv (fun h => ne_empty_of_length result h))
  | case4 result vector rest pr hq h1 h2 ih =>
    intro toks hok hv
    rw [tokenize_loop_quote rest result vector pr hq] at hok
    exact ih toks hok
      (add_and_reset_fst_forall _ vector result hv (fun h => ne_empty_of_length result h))
  | case5 result vector rest e hq h1 h2 =>
    intro toks hok hv
    rw [tokenize_loop_quote_error rest result vector e hq] at hok
    cases hok
  | case6 result vector c rest h1 h2 h3 h4 ih =>
    intro toks hok hv
    rw [tokenize_loop_special c rest result vector h1 h2 h3 h4] at hok
    refine ih toks hok ?_
    exact add_and_reset_fst_forall _ _ _
      (add_and_reset_fst_forall _ vector result hv (fun h => ne_empty_of_length result h))
      (fun h => ne_empty_of_length _ h)
  | case7 result vector c rest h1 h2 h3 h4 ih =>
    intro toks hok hv
    rw [tokenize_loop_other c rest result vector h1 h2 h3 h4] at hok
    exact ih toks hok hv

theorem tokenize_loop_no_space (s : List Char) (result : String) (vector : List String) :
    ∀ toks, tokenize_loop s result vector = Except.ok toks →
      '"' ∉ s → ' ' ∉ result.data → (∀ t ∈ vector, ' ' ∉ t.data) →
      ∀ t ∈ toks, ' ' ∉ t.data := by
  induction s, result, vector using tokenize_loop.induct with
  | case1 result vector =>
    intro toks hok _ hr hv
    rw [tokenize_loop_nil] at hok
    cases hok
    exact add_and_reset_fst_forall _ vector result hv (fun _ => hr)
  | case2 result vector rest ih =>
    intro toks hok hqs hr hv
    rw [tokenize_loop_space] at hok
    refine ih toks hok (fun hm => hqs (List.mem_cons_of_mem _ hm)) ?_ ?_
    · rw [add_and_reset_snd]
      intro hm
      cases hm
    · exact add_and_reset_fst_forall _ vector result hv (fun _ => hr)
  | case3 result vector c rest h1 h2 ih =>
    intro toks hok hqs hr hv
    rw [tokenize_loop_tab c rest result vector h1 h2] at hok
    refine ih toks hok
      (fun hm => hqs (List.mem_cons_of_mem _ (List.mem_of_mem_tail hm))) ?_ ?_
    · rw [add_and_reset_snd]
      intro hm
      cases hm
    · exact add_and_reset_fst_forall _ vector result hv (fun _ => hr)
  | case4 result vector rest pr hq h1 h2 ih =>
    intro toks hok hqs hr hv
    exact absurd (List.mem_cons_self '"' rest) hqs
  | case5 result vector rest e hq h1 h2 =>
    intro toks hok hqs hr hv
    exact absurd (List.mem_cons_self '"' rest) hqs
  | case6 result vector c rest h1 h2 h3 h4 ih =>
    intro toks hok hqs hr hv
    rw [tokenize_loop_special c rest result vector h1 h2 h3 h4] at hok
    refine ih toks hok (fun hm => hqs (List.mem_cons_of_mem _ hm)) ?_ ?_
    · rw [add_and_reset_snd]
      intro hm
      cases hm
    · refine add_and_reset_fst_forall _ _ _
        (add_and_reset_fst_forall _ vector result hv (fun _ => hr)) (fun _ => ?_)
      rw [add_and_reset_snd]
      intro hm
      rw [String.data_push] at hm
      rcases List.mem_append.mp hm with hm1 | hm1
      · cases hm1
      · rw [List.mem_singleton] at hm1
        exact h1 hm1.symm
  | case7 result vector c rest h1 h2 h3 h4 ih =>
    intro toks hok hqs hr hv
    rw [tokenize_loop_other c rest result vector h1 h2 h3 h4] at hok
    refine ih toks hok (fun hm => hqs (List.mem_cons_of_mem _ hm)) ?_ hv
    intro hm
    rw [String.data_push] at hm
    rcases List.mem_append.mp hm with hm1 | hm1
    · exact hr hm1
    · rw [List.mem_singleton] at hm1
      exact h1 hm1.symm

/-- C4 (code bug): an input line with an unterminated double quote is not
a fatal error; `tokenize` returns a token sequence for it.  The line
`"abc` (opening quote never closed) yields the token `abc`, the end of
input acting as the missing closing quote; in general, on any line free
of the NUL byte — every C string — `tokenize` returns normally: the
`exit(1)` in `handle_quotes` sits under a guard its own loop condition
has already excluded, so no input can reach it. -/
theorem c4_unterminated_quote_not_fatal :
    tokenize "\"abc".data = Except.ok ["abc"] ∧
    ∀ s : List Char, (∀ c ∈ s, c ≠ nulChar) →
      ∃ toks, tokenize s = Except.ok toks := by
  constructor
  · simp [tokenize, tokenize_loop, handle_quotes, add_and_reset, special_char, nulChar]
    decide
  · intro s h
    exact tokenize_loop_ok s "" [] h

/-- Witness for the universally quantified part of C4's theorem, at the
line `ok`. -/
theorem c4_witness : ∃ toks, tokenize ('o' :: 'k' :: []) = Except.ok toks :=
  c4_unterminated_quote_not_fatal.2 ('o' :: 'k' :: []) (by decide)

/-- C5 (code bug): a quoted run is not emitted as a token of its own —
`handle_quotes` leaves the run in the accumulating buffer (it never adds
it to the vector, though its own comment says it does), so following
unquoted characters are merged into the same token: the line `"a"b`
yields the single token `ab` instead of `a`, `b`.  The claim's own
example still holds, the closing quote there being at the end of the
line: `echo "a b"` yields `echo`, `a b`. -/
theorem c5_quoted_run_merges_with_following :
    tokenize ('"' :: 'a' :: '"' :: 'b' :: []) = Except.ok ["ab"] ∧
    tokenize "echo \"a b\"".data = Except.ok ["echo", "a b"] := by
  constructor
  · simp [tokenize, tokenize_loop, handle_quotes, add_and_reset, special_char, nulChar]
    decide
  · simp [tokenize, tokenize_loop, handle_quotes, add_and_reset, special_char, nulChar]
    decide

/-- Counterexample for C6: the line consisting of a double-quoted space
tokenizes to a sequence whose only token is the one-character space
string — a whitespace token, contradicting the claim that whitespace is
never itself emitted as a token. -/
theorem c6_counterexample_quoted_space :
    tokenize ('"' :: ' ' :: '"' :: []) = Except.ok [" "] ∧
    (" " : String).data = [' '] := by
  refine ⟨?_, rfl⟩
  simp [tokenize, tokenize_loop, handle_quotes, add_and_reset, special_char, nulChar]
  decide

/-- C6 (amended): a token sequence returned by `tokenize` contains no
empty-string token; and on a line containing no double-quote character,
no token contains the space separator at all — in particular whitespace
is never itself a token.  (A double-quoted run may consist of
whitespace, which the counterexample exhibits.) -/
theorem c6_no_empty_and_no_unquoted_space (s : List Char) (toks : List String)
    (hok : tokenize s = Except.ok toks) :
    (∀ t ∈ toks, t ≠ "") ∧
    ('"' ∉ s → ∀ t ∈ toks, ' ' ∉ t.data) := by
  constructor
  · exact tokenize_loop_no_empty s "" [] toks hok (fun t ht => absurd ht (List.not_mem_nil t))
  · intro hq
    refine tokenize_loop_no_space s "" [] toks hok hq ?_ ?_
    · intro hm
      cases hm
    · intro t ht
      exact absurd ht (List.not_mem_nil t)

/-- Witness for C6 (amended), at the line `a b`. -/
theorem c6_witness :
    (∀ t ∈ ["a", "b"], t ≠ "") ∧
    ('"' ∉ ('a' :: ' ' :: 'b' :: []) → ∀ t ∈ ["a", "b"], ' ' ∉ t.data) :=
  c6_no_empty_and_no_unquoted_space ('a' :: ' ' :: 'b' :: []) ["a", "b"]
    (by simp [tokenize, tokenize_loop, handle_quotes, add_and_reset, special_char, nulChar]
        decide)

end Minishell
